import Mathlib

/-!
Verification of the pianohub sliding-DFT analyzer core against its
natural-language specification.

The repository ships the visualization layer, the doorbell application,
the WASM wrapper and the test driver; the analyzer core itself
(ring buffer, DFT bin, moving averages, tuning mapper, pipeline) is the
component those files import.  Definitions for the core are therefore
modelled from the specification text, while the wrapper and the doorbell
tuning are translated directly from the available sources.
-/

set_option maxHeartbeats 1000000

/-- Modelled from the spec: the Circular Sample Buffer of section 4.1
(the RingBuffer class imported by the test driver, absent from the
available sources).  Fixed capacity, a slot store indexed by write
position modulo capacity, and a running write counter.  Missing history
reads as zero, so the store starts all-zero. -/
structure RingBuffer (α : Type) where
  capacity : ℕ
  buf : ℕ → α
  idx : ℕ

/-- Modelled from the spec: a freshly constructed buffer of the given
capacity holds zeros (lookback under-run is treated as zero). -/
def RingBuffer.init (α : Type) [Zero α] (cap : ℕ) : RingBuffer α :=
  ⟨cap, fun _ => 0, 0⟩

/-- Modelled from the spec: write(sample) appends the newest sample,
evicting the oldest once capacity is reached. -/
def RingBuffer.write {α : Type} (rb : RingBuffer α) (v : α) : RingBuffer α :=
  ⟨rb.capacity, fun s => if s = rb.idx % rb.capacity then v else rb.buf s, rb.idx + 1⟩

/-- Modelled from the spec: read(lag) returns the sample written lag
writes before the most recent one (lag = 1 is the newest). -/
def RingBuffer.read {α : Type} (rb : RingBuffer α) (lag : ℕ) : α :=
  rb.buf (((rb.idx : ℤ) - (lag : ℤ)) % (rb.capacity : ℤ)).toNat

/-- Feed a whole list of samples into the buffer, oldest first. -/
def RingBuffer.writeAll {α : Type} (rb : RingBuffer α) (ws : List α) : RingBuffer α :=
  ws.foldl RingBuffer.write rb

theorem RingBuffer.writeAll_append {α : Type} (rb : RingBuffer α) (l : List α) (a : α) :
    rb.writeAll (l ++ [a]) = (rb.writeAll l).write a := by
  simp [RingBuffer.writeAll]

theorem RingBuffer.writeAll_capacity {α : Type} (rb : RingBuffer α) (ws : List α) :
    (rb.writeAll ws).capacity = rb.capacity := by
  induction ws generalizing rb with
  | nil => rfl
  | cons w ws ih => simpa [RingBuffer.writeAll, RingBuffer.write] using ih (rb.write w)

theorem RingBuffer.writeAll_idx {α : Type} (rb : RingBuffer α) (ws : List α) :
    (rb.writeAll ws).idx = rb.idx + ws.length := by
  induction ws generalizing rb with
  | nil => simp [RingBuffer.writeAll]
  | cons w ws ih =>
    have step : rb.writeAll (w :: ws) = (rb.write w).writeAll ws := rfl
    rw [step, ih (rb.write w)]
    simp only [RingBuffer.write, List.length_cons]
    omega

/-- When at least lag samples have been written, the read indexes the
store at the plain natural remainder. -/
theorem RingBuffer.read_eq_buf {α : Type} (rb : RingBuffer α) (lag : ℕ) (h : lag ≤ rb.idx) :
    rb.read lag = rb.buf ((rb.idx - lag) % rb.capacity) := by
  unfold RingBuffer.read
  congr 1
  have h1 : ((rb.idx : ℤ) - (lag : ℤ)) = ((rb.idx - lag : ℕ) : ℤ) := by omega
  rw [h1, ← Int.ofNat_emod, Int.toNat_ofNat]

/-- Two in-range positions strictly less than one capacity apart occupy
distinct slots. -/
theorem natMod_ne_of_lt_of_lt (a d cap : ℕ) (hd : 0 < d) (hdc : d < cap) :
    a % cap ≠ (a + d) % cap := by
  intro h
  have hle : a ≤ a + d := Nat.le_add_right a d
  have : cap ∣ (a + d) - a := (Nat.modEq_iff_dvd' hle).mp h
  rw [Nat.add_sub_cancel_left] at this
  exact absurd (Nat.le_of_dvd hd this) (not_le.mpr hdc)

/-- Core correctness of the circular buffer: after any sequence of
writes, reading back at lag 1 ≤ lag ≤ capacity returns the lag-th most
recently written sample. -/
theorem RingBuffer.writeAll_read {α : Type} [Zero α] (rb : RingBuffer α) (ws : List α)
    (lag : ℕ) (h1 : 1 ≤ lag) (h2 : lag ≤ rb.capacity) (h3 : lag ≤ ws.length) :
    (rb.writeAll ws).read lag = ws.getD (ws.length - lag) 0 := by
  induction ws using List.reverseRecOn generalizing lag with
  | nil => simp at h3; omega
  | append_singleton l a ih =>
    rw [RingBuffer.writeAll_append]
    set R := rb.writeAll l with hR
    have hcap : R.capacity = rb.capacity := RingBuffer.writeAll_capacity rb l
    have hidx : R.idx = rb.idx + l.length := RingBuffer.writeAll_idx rb l
    have hlen : (l ++ [a]).length = l.length + 1 := by simp
    rw [hlen] at h3
    have hread : (R.write a).read lag =
        (R.write a).buf ((R.idx + 1 - lag) % R.capacity) := by
      have : lag ≤ (R.write a).idx := by
        simp only [RingBuffer.write, hidx]; omega
      have h4 := RingBuffer.read_eq_buf (R.write a) lag this
      simpa [RingBuffer.write] using h4
    rcases eq_or_lt_of_le h1 with h1' | h1'
    · -- lag = 1 : reads the slot just written
      rw [hread, ← h1']
      have hslot : (R.idx + 1 - 1) % R.capacity = R.idx % R.capacity := by simp
      rw [hslot]
      have hidxeq : (l ++ [a]).length - 1 = l.length := by simp
      rw [hidxeq, List.getD_append_right l [a] 0 l.length (le_refl _)]
      simp [RingBuffer.write]
    · -- lag ≥ 2 : the just-written slot is untouched; defer to the prefix
      have h2' : 2 ≤ lag := h1'
      rw [hread]
      have hne : (R.idx + 1 - lag) % R.capacity ≠ R.idx % R.capacity := by
        have harith : R.idx + 1 - lag + (lag - 1) = R.idx := by omega
        have := natMod_ne_of_lt_of_lt (R.idx + 1 - lag) (lag - 1)
          R.capacity (by omega) (by omega)
        rw [harith] at this
        exact this
      simp only [RingBuffer.write, if_neg hne]
      have hprev : R.buf ((R.idx + 1 - lag) % R.capacity) = R.read (lag - 1) := by
        have : lag - 1 ≤ R.idx := by omega
        rw [RingBuffer.read_eq_buf R (lag - 1) this]
        congr 2
        omega
      rw [hprev, hR, ih (lag - 1) (by omega) (by omega) (by omega)]
      have hidxlt : l.length - (lag - 1) < l.length := by omega
      rw [List.getD_append _ _ _ _ (by omega)]
      congr 1
      omega

/-- Slots that no pending write targets are left untouched. -/
theorem RingBuffer.writeAll_buf_untouched {α : Type} (rb : RingBuffer α) (ws : List α)
    (s : ℕ) (hs : ∀ j, rb.idx ≤ j → j < rb.idx + ws.length → j % rb.capacity ≠ s) :
    (rb.writeAll ws).buf s = rb.buf s := by
  induction ws generalizing rb with
  | nil => rfl
  | cons w ws ih =>
    have step : rb.writeAll (w :: ws) = (rb.write w).writeAll ws := rfl
    rw [step, ih (rb.write w) (by
      intro j hj1 hj2
      simp only [RingBuffer.write] at hj1 hj2 ⊢
      apply hs j (by omega)
      simp only [List.length_cons]
      omega)]
    simp only [RingBuffer.write]
    rw [if_neg (fun h =>
      (hs rb.idx (le_refl _) (by simp only [List.length_cons]; omega)) h.symm)]

/-- Reading past the available history of a freshly constructed buffer
yields zero (lookback under-run handled as silence). -/
theorem RingBuffer.read_underrun {α : Type} [Zero α] (cap : ℕ) (ws : List α) (lag : ℕ)
    (h1 : ws.length < lag) (h2 : lag ≤ cap) :
    ((RingBuffer.init α cap).writeAll ws).read lag = 0 := by
  set R := (RingBuffer.init α cap).writeAll ws with hR
  have hcap : R.capacity = cap := RingBuffer.writeAll_capacity _ ws
  have hidx : R.idx = ws.length := by
    have := RingBuffer.writeAll_idx (RingBuffer.init α cap) ws
    simpa [RingBuffer.init] using this
  have hL : ws.length < cap := lt_of_lt_of_le h1 h2
  have hcap0 : 0 < cap := lt_of_le_of_lt (Nat.zero_le _) hL
  -- the wrapped slot index
  have hslot : (((R.idx : ℤ) - (lag : ℤ)) % (R.capacity : ℤ)).toNat
      = ws.length + cap - lag := by
    rw [hidx, hcap]
    have hlt : ((ws.length : ℤ) - lag) % (cap : ℤ)
        = (ws.length : ℤ) + cap - lag := by
      have h0 : (0 : ℤ) ≤ (ws.length : ℤ) + cap - lag := by omega
      have hub : (ws.length : ℤ) + cap - lag < cap := by omega
      have hval : (ws.length : ℤ) - lag + cap = (ws.length : ℤ) + cap - lag := by ring
      calc ((ws.length : ℤ) - lag) % (cap : ℤ)
          = ((ws.length : ℤ) - lag + cap) % (cap : ℤ) := (Int.add_emod_self).symm
        _ = ((ws.length : ℤ) + cap - lag) % (cap : ℤ) := by rw [hval]
        _ = (ws.length : ℤ) + cap - lag := Int.emod_eq_of_lt h0 hub
    rw [hlt]
    omega
  rw [RingBuffer.read, hslot]
  have huntouched : R.buf (ws.length + cap - lag) = (RingBuffer.init α cap).buf
      (ws.length + cap - lag) := by
    apply RingBuffer.writeAll_buf_untouched
    intro j hj1 hj2
    simp only [RingBuffer.init] at hj1 hj2 ⊢
    have hjlt : j < ws.length := by omega
    rw [Nat.mod_eq_of_lt (by omega)]
    omega
  rw [huntouched]
  rfl

/-- Reading a buffer whose whole store is zero yields zero at any lag. -/
theorem RingBuffer.read_zero_buf {α : Type} [Zero α] (rb : RingBuffer α) (lag : ℕ)
    (h : ∀ i, rb.buf i = 0) : rb.read lag = 0 := by
  simp [RingBuffer.read, h]

/-- Writing a zero into an all-zero buffer keeps it all-zero. -/
theorem RingBuffer.write_zero_buf {α : Type} [Zero α] (rb : RingBuffer α)
    (h : ∀ i, rb.buf i = 0) : ∀ i, (rb.write (0 : α)).buf i = 0 := by
  intro i
  simp only [RingBuffer.write]
  split <;> simp [h]

/-- Reading back from a constant stream: the value once the lag is
covered by the history, zero before that. -/
theorem RingBuffer.read_constant {α : Type} [Zero α] (cap n lag : ℕ) (c : α)
    (h1 : 1 ≤ lag) (h2 : lag ≤ cap) :
    ((RingBuffer.init α cap).writeAll (List.replicate n c)).read lag
      = if lag ≤ n then c else 0 := by
  by_cases h : lag ≤ n
  · rw [if_pos h]
    have := RingBuffer.writeAll_read (RingBuffer.init α cap) (List.replicate n c) lag
      h1 (by simpa [RingBuffer.init] using h2) (by simpa using h)
    rw [this]
    simp only [List.length_replicate]
    rw [List.getD_eq_getElem _ _ (by simp; omega)]
    simp
  · rw [if_neg h]
    exact RingBuffer.read_underrun cap _ lag (by simp; omega) h2

/-- Modelled from the spec: the Tuning Mapper's bin-parameter derivation
(section 4.3) as declared in the analyzer core used by doorbell.cpp:
N = round(sampleRate / bandwidth) and k = round(frequency * N / sampleRate),
both integer-rounded. -/
def frequencyAndBandwidthToKAndN (sampleRate frequency bandwidth : ℚ) : ℤ × ℤ :=
  let N : ℤ := round (sampleRate / bandwidth)
  (round (frequency * (N : ℚ) / sampleRate), N)

/-- The doorbell detector's two-bin tuning, from doorbell.cpp: an 8 kHz
sample rate, 2 Hz bandwidth, target frequencies 727 Hz and 977 Hz. -/
def DoorbellTuning.mapping : List (ℤ × ℤ) :=
  [frequencyAndBandwidthToKAndN 8000 727 2,
   frequencyAndBandwidthToKAndN 8000 977 2]

/-- The realized center frequency of a derived (k, N) pair at a given
sample rate. -/
def realizedFrequency (sampleRate : ℚ) (p : ℤ × ℤ) : ℚ :=
  (p.1 : ℚ) * sampleRate / (p.2 : ℚ)

/-- Rounding error of the bin index translates into at most half of
sampleRate/N of frequency deviation. -/
theorem realizedFrequency_err (sampleRate frequency bandwidth : ℚ)
    (hsr : 0 < sampleRate)
    (hN : 1 ≤ (frequencyAndBandwidthToKAndN sampleRate frequency bandwidth).2) :
    |realizedFrequency sampleRate (frequencyAndBandwidthToKAndN sampleRate frequency bandwidth)
      - frequency|
      ≤ sampleRate / (2 * ((frequencyAndBandwidthToKAndN sampleRate frequency bandwidth).2 : ℚ)) := by
  set N : ℤ := round (sampleRate / bandwidth) with hNdef
  have hp : frequencyAndBandwidthToKAndN sampleRate frequency bandwidth
      = (round (frequency * (N : ℚ) / sampleRate), N) := rfl
  rw [hp] at hN ⊢
  set k : ℤ := round (frequency * (N : ℚ) / sampleRate) with hkdef
  have hNQ : (0 : ℚ) < (N : ℚ) := by exact_mod_cast hN
  have hNne : (N : ℚ) ≠ 0 := ne_of_gt hNQ
  have hsrne : sampleRate ≠ 0 := ne_of_gt hsr
  have hkey : |(k : ℚ) - frequency * (N : ℚ) / sampleRate| ≤ 1 / 2 := by
    rw [abs_sub_comm]
    simpa [hkdef] using abs_sub_round (frequency * (N : ℚ) / sampleRate)
  have hsplit : realizedFrequency sampleRate (k, N) - frequency
      = ((k : ℚ) - frequency * (N : ℚ) / sampleRate) * (sampleRate / (N : ℚ)) := by
    unfold realizedFrequency
    field_simp
    ring
  rw [hsplit, abs_mul, abs_of_pos (div_pos hsr hNQ)]
  have := mul_le_mul_of_nonneg_right hkey (le_of_lt (div_pos hsr hNQ))
  calc |(k : ℚ) - frequency * (N : ℚ) / sampleRate| * (sampleRate / (N : ℚ))
      ≤ 1 / 2 * (sampleRate / (N : ℚ)) := this
    _ = sampleRate / (2 * (N : ℚ)) := by ring

/-- Modelled from the spec: the Fast Moving Average of section 4.4, a
single-pole exponential filter.  Per channel it keeps one running value;
update applies avg + alpha * (value - avg) with alpha = 1 / averageWindow
(the coefficient derived from the configured window, larger for shorter
windows), degrading to passthrough of the raw value when the window is
not positive. -/
structure FastMovingAverage (α : Type) where
  channels : ℕ
  averageWindow : α
  history : ℕ → α

/-- Modelled from the spec: construction with a channel count and a
window; the running values start at zero. -/
def FastMovingAverage.init {α : Type} [Zero α] (channels : ℕ) (w : α) :
    FastMovingAverage α :=
  ⟨channels, w, fun _ => 0⟩

/-- Modelled from the spec: one update step over all channels. -/
def FastMovingAverage.update {α : Type} [LinearOrderedField α]
    (f : FastMovingAverage α) (levels : ℕ → α) : FastMovingAverage α :=
  { f with
    history := fun c =>
      if c < f.channels then
        if 0 < f.averageWindow then
          f.history c + (levels c - f.history c) / f.averageWindow
        else levels c
      else f.history c }

/-- Modelled from the spec: read returns the current smoothed value. -/
def FastMovingAverage.read {α : Type} (f : FastMovingAverage α) (c : ℕ) : α :=
  f.history c

/-- Modelled from the spec: the Heavy Moving Average of section 4.4, an
exact windowed mean over the last averageWindow samples.  Per channel it
keeps a fixed-capacity history ring and a running sum; the maximum
window is preallocated at construction and runtime requests are clamped
to it. -/
structure HeavyMovingAverage (α : Type) where
  channels : ℕ
  maxAverageWindow : ℕ
  averageWindow : ℕ
  history : ℕ → RingBuffer α
  sum : ℕ → α
  latest : ℕ → α

/-- Modelled from the spec: construction preallocates per-channel rings
of the maximum window size; sums start at zero and the window starts
unset. -/
def HeavyMovingAverage.init {α : Type} [Zero α] (channels maxWindow : ℕ) :
    HeavyMovingAverage α :=
  ⟨channels, maxWindow, 0, fun _ => RingBuffer.init α maxWindow, fun _ => 0, fun _ => 0⟩

/-- Modelled from the spec: runtime window requests are clamped to the
preallocated capacity; nothing else of the state is touched. -/
def HeavyMovingAverage.setAverageWindow {α : Type} (h : HeavyMovingAverage α)
    (w : ℕ) : HeavyMovingAverage α :=
  { h with averageWindow := min w h.maxAverageWindow }

/-- Modelled from the spec: one update step; the new sample enters the
ring and the sum, the sample leaving the window is subtracted.  A zero
window only records the latest raw value (passthrough mode). -/
def HeavyMovingAverage.update {α : Type} [LinearOrderedField α]
    (h : HeavyMovingAverage α) (levels : ℕ → α) : HeavyMovingAverage α :=
  { h with
    history := fun c =>
      if c < h.channels ∧ 0 < h.averageWindow then (h.history c).write (levels c)
      else h.history c,
    sum := fun c =>
      if c < h.channels ∧ 0 < h.averageWindow then
        h.sum c + levels c - (h.history c).read h.averageWindow
      else h.sum c,
    latest := fun c => if c < h.channels then levels c else h.latest c }

/-- Modelled from the spec: read returns the exact mean over the current
window, or the latest raw value in passthrough mode. -/
def HeavyMovingAverage.read {α : Type} [LinearOrderedField α]
    (h : HeavyMovingAverage α) (c : ℕ) : α :=
  if h.averageWindow = 0 then h.latest c else h.sum c / (h.averageWindow : α)

/-- n update steps of the heavy filter on a constant input stream,
starting from a fresh filter whose window was set once. -/
def heavyConstRun (channels maxWindow reqWindow : ℕ) (c : ℚ) : ℕ → HeavyMovingAverage ℚ
  | 0 => (HeavyMovingAverage.init channels maxWindow).setAverageWindow reqWindow
  | n + 1 => (heavyConstRun channels maxWindow reqWindow c n).update (fun _ => c)

/-- n update steps of the fast filter on a constant input stream. -/
def fastConstRun (channels : ℕ) (w c : ℚ) : ℕ → FastMovingAverage ℚ
  | 0 => FastMovingAverage.init channels w
  | n + 1 => (fastConstRun channels w c n).update (fun _ => c)

theorem heavyConstRun_channels (channels maxWindow reqWindow : ℕ) (c : ℚ) (n : ℕ) :
    (heavyConstRun channels maxWindow reqWindow c n).channels = channels := by
  induction n with
  | zero => rfl
  | succ n ih => simpa [heavyConstRun, HeavyMovingAverage.update] using ih

theorem heavyConstRun_window (channels maxWindow reqWindow : ℕ) (c : ℚ) (n : ℕ) :
    (heavyConstRun channels maxWindow reqWindow c n).averageWindow
      = min reqWindow maxWindow := by
  induction n with
  | zero => rfl
  | succ n ih => simpa [heavyConstRun, HeavyMovingAverage.update] using ih

theorem heavyConstRun_max (channels maxWindow reqWindow : ℕ) (c : ℚ) (n : ℕ) :
    (heavyConstRun channels maxWindow reqWindow c n).maxAverageWindow = maxWindow := by
  induction n with
  | zero => rfl
  | succ n ih => simpa [heavyConstRun, HeavyMovingAverage.update] using ih
/-- State invariant of the heavy filter under a constant stream: every
active channel's ring is exactly the stream history and the running sum
is the value times the filled part of the window. -/
theorem heavyConstRun_invariant (channels maxWindow reqWindow : ℕ) (c : ℚ) (n : ℕ)
    (hW1 : 1 ≤ min reqWindow maxWindow) (ch : ℕ) (hch : ch < channels) :
    (heavyConstRun channels maxWindow reqWindow c n).history ch
        = (RingBuffer.init ℚ maxWindow).writeAll (List.replicate n c)
      ∧ (heavyConstRun channels maxWindow reqWindow c n).sum ch
        = c * ((min n (min reqWindow maxWindow) : ℕ) : ℚ) := by
  induction n with
  | zero =>
    constructor
    · rfl
    · simp [heavyConstRun, HeavyMovingAverage.init, HeavyMovingAverage.setAverageWindow]
  | succ n ih =>
    obtain ⟨ihh, ihs⟩ := ih
    have hcond : ch < (heavyConstRun channels maxWindow reqWindow c n).channels
        ∧ 0 < (heavyConstRun channels maxWindow reqWindow c n).averageWindow := by
      rw [heavyConstRun_channels, heavyConstRun_window]
      exact ⟨hch, by omega⟩
    constructor
    · show (HeavyMovingAverage.update _ _).history ch = _
      simp only [HeavyMovingAverage.update, if_pos hcond, ihh]
      rw [← RingBuffer.writeAll_append]
      congr 1
      simp [List.replicate_succ']
    · show (HeavyMovingAverage.update _ _).sum ch = _
      simp only [HeavyMovingAverage.update, if_pos hcond, ihs, ihh]
      rw [heavyConstRun_window]
      rw [RingBuffer.read_constant maxWindow n (min reqWindow maxWindow) c
        (by omega) (by omega)]
      by_cases hfill : min reqWindow maxWindow ≤ n
      · rw [if_pos hfill]
        have h1 : min (n + 1) (min reqWindow maxWindow) = min reqWindow maxWindow := by
          omega
        have h2 : min n (min reqWindow maxWindow) = min reqWindow maxWindow := by omega
        rw [h1, h2]
        ring
      · rw [if_neg hfill]
        have h1 : min (n + 1) (min reqWindow maxWindow) = n + 1 := by omega
        have h2 : min n (min reqWindow maxWindow) = n := by omega
        rw [h1, h2]
        push_cast
        ring

/-- Once the window has filled, the heavy filter's read on a constant
stream is exactly the constant. -/
theorem heavyConstRun_read (channels maxWindow reqWindow : ℕ) (c : ℚ) (n : ℕ)
    (hW1 : 1 ≤ min reqWindow maxWindow) (hn : min reqWindow maxWindow ≤ n)
    (ch : ℕ) (hch : ch < channels) :
    (heavyConstRun channels maxWindow reqWindow c n).read ch = c := by
  have hinv := heavyConstRun_invariant channels maxWindow reqWindow c n hW1 ch hch
  have hwin := heavyConstRun_window channels maxWindow reqWindow c n
  simp only [HeavyMovingAverage.read, hwin, hinv.2]
  rw [if_neg (by omega)]
  have hmn : min n (min reqWindow maxWindow) = min reqWindow maxWindow := by omega
  rw [hmn]
  have hpos : (0 : ℚ) < ((min reqWindow maxWindow : ℕ) : ℚ) := by
    exact_mod_cast (by omega : 0 < min reqWindow maxWindow)
  rw [mul_div_assoc, div_self (ne_of_gt hpos), mul_one]

theorem fastConstRun_channels (channels : ℕ) (w c : ℚ) (n : ℕ) :
    (fastConstRun channels w c n).channels = channels := by
  induction n with
  | zero => rfl
  | succ n ih => simpa [fastConstRun, FastMovingAverage.update] using ih

theorem fastConstRun_window (channels : ℕ) (w c : ℚ) (n : ℕ) :
    (fastConstRun channels w c n).averageWindow = w := by
  induction n with
  | zero => rfl
  | succ n ih => simpa [fastConstRun, FastMovingAverage.update] using ih

/-- Closed form of the fast filter on a constant stream: geometric decay
of the initial error, never reaching the constant in finitely many
steps when the window exceeds one sample. -/
theorem fastConstRun_history (channels : ℕ) (w c : ℚ) (hw : 0 < w) (n : ℕ)
    (ch : ℕ) (hch : ch < channels) :
    (fastConstRun channels w c n).history ch = c - c * (1 - 1 / w) ^ n := by
  induction n with
  | zero => simp [fastConstRun, FastMovingAverage.init]
  | succ n ih =>
    have hcond : ch < (fastConstRun channels w c n).channels := by
      rw [fastConstRun_channels]; exact hch
    have hwin : 0 < (fastConstRun channels w c n).averageWindow := by
      rw [fastConstRun_window]; exact hw
    show (FastMovingAverage.update _ _).history ch = _
    simp only [FastMovingAverage.update, if_pos hcond, if_pos hwin, ih]
    rw [fastConstRun_window]
    have hwne : w ≠ 0 := ne_of_gt hw
    field_simp
    ring

theorem fastConstRun_read_ne (channels : ℕ) (w c : ℚ) (hw : 1 < w) (hc : c ≠ 0)
    (n : ℕ) (ch : ℕ) (hch : ch < channels) :
    (fastConstRun channels w c n).read ch ≠ c := by
  have h0 : (0 : ℚ) < w := lt_trans zero_lt_one hw
  rw [FastMovingAverage.read, fastConstRun_history channels w c h0 n ch hch]
  intro h
  have hstep : c * (1 - 1 / w) ^ n = 0 := by linarith [h]
  have hq : (0 : ℚ) < 1 - 1 / w := by
    have : 1 / w < 1 := by
      rw [div_lt_one h0]; exact hw
    linarith
  have hpow : (1 - 1 / w) ^ n ≠ 0 := pow_ne_zero n (ne_of_gt hq)
  exact hc (by
    rcases mul_eq_zero.mp hstep with h' | h'
    · exact h'
    · exact absurd h' hpow)

/-- Modelled from the spec: the Frequency Bin Tracker of section 4.2
(the DFTBin class, absent from the available sources).  It holds the
(k, N) bin parameters, the precomputed rotation coefficient W, the
complex accumulator X, and the fixed reference level used for amplitude
normalization. -/
structure DFTBin where
  k : ℕ
  N : ℕ
  coeff : ℂ
  accumulator : ℂ
  referenceAmplitude : ℝ

/-- Modelled from the spec: construction takes (k, N) and precomputes
W = (1 - eps) * e^(i 2 pi k / N) once — the unit rotation for the bin
shrunk by the stability-damping contraction eps; the accumulator starts
at zero. -/
noncomputable def makeDFTBin (k N : ℕ) (eps ref : ℝ) : DFTBin :=
  ⟨k, N, ((1 - eps : ℝ) : ℂ) * Complex.exp (((2 * Real.pi * k / N : ℝ) : ℂ) * Complex.I),
    0, ref⟩

/-- Modelled from the spec: update(oldSample, newSample) performs one
O(1) step of the recursion X = (X + x[n] - x[n-N]) * W. -/
def DFTBin.update (b : DFTBin) (oldSample newSample : ℝ) : DFTBin :=
  { b with accumulator := (b.accumulator + (newSample : ℂ) - (oldSample : ℂ)) * b.coeff }

/-- Modelled from the spec: amplitudeSpectrum = |X|. -/
noncomputable def DFTBin.amplitudeSpectrum (b : DFTBin) : ℝ :=
  Complex.abs b.accumulator

/-- Modelled from the spec: normalizedAmplitudeSpectrum is the amplitude
scaled by a factor proportional to 1/N and a fixed reference level. -/
noncomputable def DFTBin.normalizedAmplitudeSpectrum (b : DFTBin) : ℝ :=
  b.referenceAmplitude / (b.N : ℝ) * b.amplitudeSpectrum

/-- The N-delayed sample of a stream, with missing history read as
zero. -/
def dftOldSample (xs : ℕ → ℝ) (N n : ℕ) : ℝ :=
  if N ≤ n then xs (n - N) else 0

/-- Feed the first n samples of a stream into a bin, the caller
supplying each sample's own N-delayed partner. -/
def DFTBin.run (b : DFTBin) (xs : ℕ → ℝ) : ℕ → DFTBin
  | 0 => b
  | n + 1 => (b.run xs n).update (dftOldSample xs b.N n) (xs n)

theorem DFTBin.run_coeff (b : DFTBin) (xs : ℕ → ℝ) (n : ℕ) :
    (b.run xs n).coeff = b.coeff := by
  induction n with
  | zero => rfl
  | succ n ih => simpa [DFTBin.run, DFTBin.update] using ih

/-- A strictly contracting rotation coefficient keeps the accumulator
inside the disc of radius 2 r / (1 - r) for any stream bounded by one in
magnitude. -/
theorem DFTBin.run_abs_le (b : DFTBin) (xs : ℕ → ℝ) (r : ℝ)
    (hr0 : 0 ≤ r) (hr1 : r < 1) (hW : Complex.abs b.coeff ≤ r)
    (hacc : b.accumulator = 0) (hx : ∀ i, |xs i| ≤ 1) (n : ℕ) :
    Complex.abs (b.run xs n).accumulator ≤ 2 * r / (1 - r) := by
  have hB0 : 0 ≤ 2 * r / (1 - r) := by
    apply div_nonneg (by linarith) (by linarith)
  induction n with
  | zero =>
    rw [show b.run xs 0 = b from rfl, hacc]
    simpa using hB0
  | succ n ih =>
    have hold : |dftOldSample xs b.N n| ≤ 1 := by
      unfold dftOldSample
      split
      · exact hx _
      · simp
    show Complex.abs ((b.run xs n).update _ _).accumulator ≤ _
    simp only [DFTBin.update]
    rw [map_mul, DFTBin.run_coeff]
    have htri : Complex.abs ((b.run xs n).accumulator + (xs n : ℂ)
        - (dftOldSample xs b.N n : ℂ))
        ≤ Complex.abs (b.run xs n).accumulator + 1 + 1 := by
      calc Complex.abs ((b.run xs n).accumulator + (xs n : ℂ)
            - (dftOldSample xs b.N n : ℂ))
          ≤ Complex.abs ((b.run xs n).accumulator + (xs n : ℂ))
            + Complex.abs ((dftOldSample xs b.N n : ℂ)) := by
            exact AbsoluteValue.sub_le_add Complex.abs _ _
        _ ≤ Complex.abs (b.run xs n).accumulator + Complex.abs ((xs n : ℂ))
            + Complex.abs ((dftOldSample xs b.N n : ℂ)) := by
            have := AbsoluteValue.add_le Complex.abs
              (b.run xs n).accumulator ((xs n : ℂ))
            linarith
        _ ≤ Complex.abs (b.run xs n).accumulator + 1 + 1 := by
            rw [Complex.abs_ofReal, Complex.abs_ofReal]
            have h1 := hx n
            linarith
    have hmul : Complex.abs ((b.run xs n).accumulator + (xs n : ℂ)
        - (dftOldSample xs b.N n : ℂ)) * Complex.abs b.coeff
        ≤ (2 * r / (1 - r) + 2) * r := by
      apply mul_le_mul
      · linarith
      · exact hW
      · exact AbsoluteValue.nonneg Complex.abs _
      · linarith
    have hfix : (2 * r / (1 - r) + 2) * r = 2 * r / (1 - r) := by
      have h1r : (1 : ℝ) - r ≠ 0 := by linarith
      rw [div_add' _ _ _ h1r, div_mul_eq_mul_div, div_eq_div_iff h1r h1r]
      ring
    linarith [hmul, hfix ▸ hmul]

/-- The constructed rotation coefficient has magnitude exactly 1 - eps:
a unit rotation shrunk by the contraction factor. -/
theorem makeDFTBin_abs_coeff (k N : ℕ) (eps ref : ℝ) (heps : eps ≤ 1) :
    Complex.abs (makeDFTBin k N eps ref).coeff = 1 - eps := by
  unfold makeDFTBin
  rw [map_mul, Complex.abs_ofReal, Complex.abs_exp_ofReal_mul_I, mul_one,
    abs_of_nonneg (by linarith)]

/-- Modelled from the spec: the optional Moving Average filter bank of
the Analyzer Pipeline, one of the two interchangeable variants. -/
inductive Smoother
  | fast (f : FastMovingAverage ℝ)
  | heavy (h : HeavyMovingAverage ℝ)

/-- Modelled from the spec: reconfigure the bank from a window expressed
in samples; the heavy variant clamps to its preallocated capacity. -/
noncomputable def Smoother.setWindow : Smoother → ℝ → Smoother
  | .fast f, w => .fast { f with averageWindow := w }
  | .heavy h, w => .heavy (h.setAverageWindow (round w).toNat)

/-- Modelled from the spec: push one raw level vector through the bank. -/
noncomputable def Smoother.update : Smoother → (ℕ → ℝ) → Smoother
  | .fast f, levels => .fast (f.update levels)
  | .heavy h, levels => .heavy (h.update levels)

/-- Modelled from the spec: current smoothed value of one channel. -/
noncomputable def Smoother.read : Smoother → ℕ → ℝ
  | .fast f, c => f.read c
  | .heavy h, c => h.read c

/-- Modelled from the spec: the Analyzer Pipeline of section 4.5 (the
SlidingDFT class).  It owns one circular sample buffer sized to the
maximum N across bins, one frequency bin tracker per mapped key, and an
optional moving-average bank. -/
structure SlidingDFT where
  sampleRate : ℚ
  bins : List DFTBin
  buffer : RingBuffer ℝ
  smoother : Option Smoother

/-- Modelled from the spec: per-sample step — write the sample into the
buffer, then update every bin with its own N-lagged sample. -/
def SlidingDFT.processSample (s : SlidingDFT) (x : ℝ) : SlidingDFT :=
  let rb := s.buffer.write x
  { s with
    buffer := rb,
    bins := s.bins.map (fun b => b.update (rb.read b.N) x) }

/-- Modelled from the spec: stream a whole block through the per-sample
step. -/
def SlidingDFT.processBlock (s : SlidingDFT) (samples : List ℝ) : SlidingDFT :=
  samples.foldl SlidingDFT.processSample s

/-- Modelled from the spec: the raw level vector assembled after a
block, one normalized amplitude per tracked key. -/
noncomputable def SlidingDFT.levels (s : SlidingDFT) : List ℝ :=
  s.bins.map DFTBin.normalizedAmplitudeSpectrum

/-- Modelled from the spec: process(samples, averageWindowInSeconds) —
stream the block, assemble the raw level vector, and, only when the
requested window is positive and a bank exists, push the vector through
the moving-average bank and return the smoothed vector instead. -/
noncomputable def SlidingDFT.process (s : SlidingDFT) (samples : List ℝ)
    (averageWindowInSeconds : ℝ) : SlidingDFT × List ℝ :=
  let s' := s.processBlock samples
  let raw := s'.levels
  if 0 < averageWindowInSeconds then
    match s'.smoother with
    | none => (s', raw)
    | some sm =>
        let sm' := (sm.setWindow (averageWindowInSeconds * (s.sampleRate : ℝ))).update
          (fun c => raw.getD c 0)
        ({ s' with smoother := some sm' }, (List.range s'.bins.length).map sm'.read)
  else (s', raw)

/-- Modelled from the spec: feed a sequence of blocks through process,
collecting every returned level vector. -/
noncomputable def SlidingDFT.processRun (s : SlidingDFT) (w : ℝ) :
    List (List ℝ) → SlidingDFT × List (List ℝ)
  | [] => (s, [])
  | bl :: rest =>
      let r1 := s.process bl w
      let r2 := r1.1.processRun w rest
      (r2.1, r1.2 :: r2.2)

/-- Validity of one derived (k, N) pair: positive window length and bin
index inside [0, N). -/
def validKAndN (p : ℤ × ℤ) : Prop :=
  0 < p.2 ∧ 0 ≤ p.1 ∧ p.1 < p.2

instance : DecidablePred validKAndN := fun p => by
  unfold validKAndN
  infer_instance

/-- Requested smoothing bank shape: which variant, and the preallocated
capacity for the heavy one. -/
inductive SmootherKind
  | fast
  | heavy

/-- Modelled from the spec: build the pipeline state for an already
validated list of (k, N) pairs — bins with precomputed coefficients and
zeroed accumulators, a zeroed sample buffer sized to the maximum N, and
a zeroed optional filter bank. -/
noncomputable def buildSlidingDFT (sampleRate : ℚ) (pairs : List (ℤ × ℤ))
    (smoothing : Option (SmootherKind × ℕ)) (eps ref : ℝ) : SlidingDFT :=
  { sampleRate := sampleRate,
    bins := pairs.map (fun p => makeDFTBin p.1.toNat p.2.toNat eps ref),
    buffer := RingBuffer.init ℝ ((pairs.map (fun p => p.2.toNat)).foldr max 0),
    smoother := smoothing.map (fun sk =>
      match sk.1 with
      | SmootherKind.fast => Smoother.fast (FastMovingAverage.init pairs.length 0)
      | SmootherKind.heavy => Smoother.heavy (HeavyMovingAverage.init pairs.length sk.2)) }

/-- Modelled from the spec: construction derives every key's (k, N)
through the tuning mapper and fails fast (returns none) on an invalid
configuration — a non-positive sample rate or any derived pair with
N = 0 or k outside [0, N); it never clamps to a nonsensical bin. -/
noncomputable def makeSlidingDFT (sampleRate : ℚ) (reqs : List (ℚ × ℚ))
    (smoothing : Option (SmootherKind × ℕ)) (eps ref : ℝ) : Option SlidingDFT :=
  let pairs := reqs.map (fun r => frequencyAndBandwidthToKAndN sampleRate r.1 r.2)
  if 0 < sampleRate ∧ ∀ p ∈ pairs, validKAndN p then
    some (buildSlidingDFT sampleRate pairs smoothing eps ref)
  else none
/-- A zeroed smoothing bank: no stored running value, sum, latest value
or ring slot differs from zero. -/
def SmootherZero : Smoother → Prop
  | .fast f => ∀ c, f.history c = 0
  | .heavy h => ∀ c, h.sum c = 0 ∧ h.latest c = 0 ∧ ∀ i, (h.history c).buf i = 0

/-- The post-construction shape of the analyzer state: zeroed sample
store, zeroed accumulators, zeroed smoothing bank. -/
def SlidingDFT.ZeroState (s : SlidingDFT) : Prop :=
  (∀ i, s.buffer.buf i = 0)
    ∧ (∀ b ∈ s.bins, b.accumulator = 0)
    ∧ (∀ sm, s.smoother = some sm → SmootherZero sm)

theorem buildSlidingDFT_zeroState (sampleRate : ℚ) (pairs : List (ℤ × ℤ))
    (smoothing : Option (SmootherKind × ℕ)) (eps ref : ℝ) :
    (buildSlidingDFT sampleRate pairs smoothing eps ref).ZeroState := by
  refine ⟨?_, ?_, ?_⟩
  · intro i
    rfl
  · intro b hb
    simp only [buildSlidingDFT, List.mem_map] at hb
    obtain ⟨p, _, hp⟩ := hb
    rw [← hp]
    rfl
  · intro sm hsm
    rcases smoothing with _ | ⟨sk, cap⟩
    · simp [buildSlidingDFT] at hsm
    · rcases sk with _ | _ <;>
      · simp only [buildSlidingDFT, Option.map_some] at hsm
        injection hsm with hsm'
        rw [← hsm']
        simp [SmootherZero, FastMovingAverage.init, HeavyMovingAverage.init,
          RingBuffer.init]

theorem makeSlidingDFT_zeroState (sampleRate : ℚ) (reqs : List (ℚ × ℚ))
    (smoothing : Option (SmootherKind × ℕ)) (eps ref : ℝ) (s : SlidingDFT)
    (hs : makeSlidingDFT sampleRate reqs smoothing eps ref = some s) :
    s.ZeroState := by
  unfold makeSlidingDFT at hs
  simp only at hs
  split at hs
  · injection hs with hs'
    rw [← hs']
    exact buildSlidingDFT_zeroState _ _ _ _ _
  · exact absurd hs (by simp)

/-- One zero sample preserves the zero state (smoother untouched). -/
theorem SlidingDFT.processSample_zero (s : SlidingDFT) (hz : s.ZeroState) :
    (s.processSample 0).ZeroState ∧ (s.processSample 0).smoother = s.smoother := by
  obtain ⟨hbuf, hbins, hsm⟩ := hz
  refine ⟨⟨?_, ?_, ?_⟩, rfl⟩
  · intro i
    exact RingBuffer.write_zero_buf s.buffer hbuf i
  · intro b hb
    simp only [SlidingDFT.processSample, List.mem_map] at hb
    obtain ⟨b0, hb0, hb0b⟩ := hb
    rw [← hb0b]
    simp only [DFTBin.update]
    rw [RingBuffer.read_zero_buf _ _ (RingBuffer.write_zero_buf s.buffer hbuf),
      hbins b0 hb0]
    simp
  · exact hsm

/-- A block of zero samples preserves the zero state. -/
theorem SlidingDFT.processBlock_zero (s : SlidingDFT) (samples : List ℝ)
    (hz : s.ZeroState) (hsz : ∀ x ∈ samples, x = 0) :
    (s.processBlock samples).ZeroState
      ∧ (s.processBlock samples).smoother = s.smoother := by
  induction samples generalizing s with
  | nil => exact ⟨hz, rfl⟩
  | cons x rest ih =>
    have hx : x = 0 := hsz x (List.mem_cons_self x rest)
    have step : s.processBlock (x :: rest) = (s.processSample x).processBlock rest := rfl
    rw [step, hx]
    obtain ⟨hz', hsm'⟩ := SlidingDFT.processSample_zero s hz
    obtain ⟨hz'', hsm''⟩ := ih (s.processSample 0) hz'
      (fun y hy => hsz y (List.mem_cons_of_mem x hy))
    exact ⟨hz'', hsm''.trans hsm'⟩

/-- Zero accumulators read back as a zero level vector. -/
theorem SlidingDFT.levels_zero (s : SlidingDFT) (hz : ∀ b ∈ s.bins, b.accumulator = 0) :
    ∀ v ∈ s.levels, v = 0 := by
  intro v hv
  simp only [SlidingDFT.levels, List.mem_map] at hv
  obtain ⟨b, hb, hbv⟩ := hv
  rw [← hbv]
  unfold DFTBin.normalizedAmplitudeSpectrum DFTBin.amplitudeSpectrum
  rw [hz b hb]
  simp

/-- getD of a list of zeros is zero whatever the index. -/
theorem allZero_getD (l : List ℝ) (hl : ∀ v ∈ l, v = 0) (c : ℕ) : l.getD c 0 = 0 := by
  by_cases h : c < l.length
  · rw [List.getD_eq_getElem _ _ h]
    exact hl _ (List.getElem_mem h)
  · rw [List.getD_eq_default _ _ (by omega)]

/-- Reconfiguring the bank window touches no stored data. -/
theorem Smoother.setWindow_zero (sm : Smoother) (w : ℝ) (hz : SmootherZero sm) :
    SmootherZero (sm.setWindow w) := by
  rcases sm with f | h
  · exact hz
  · intro c
    obtain ⟨h1, h2, h3⟩ := hz c
    exact ⟨h1, h2, h3⟩

/-- Pushing an all-zero level vector through a zeroed bank keeps it
zeroed. -/
theorem Smoother.update_zero (sm : Smoother) (levels : ℕ → ℝ)
    (hlev : ∀ c, levels c = 0) (hz : SmootherZero sm) :
    SmootherZero (sm.update levels) := by
  rcases sm with f | h
  · intro c
    simp only [Smoother.update, FastMovingAverage.update]
    split
    · split
      · rw [hz c, hlev c]
        simp
      · exact hlev c
    · exact hz c
  · intro c
    obtain ⟨h1, h2, h3⟩ := hz c
    refine ⟨?_, ?_, ?_⟩
    · simp only [Smoother.update, HeavyMovingAverage.update]
      split
      · rw [h1, hlev c, RingBuffer.read_zero_buf _ _ h3]
        simp
      · exact h1
    · simp only [Smoother.update, HeavyMovingAverage.update]
      split
      · exact hlev c
      · exact h2
    · intro i
      simp only [Smoother.update, HeavyMovingAverage.update]
      split
      · rw [hlev c]
        exact RingBuffer.write_zero_buf _ h3 i
      · exact h3 i

/-- Reading any channel of a zeroed bank yields zero. -/
theorem Smoother.read_zero (sm : Smoother) (c : ℕ) (hz : SmootherZero sm) :
    sm.read c = 0 := by
  rcases sm with f | h
  · exact hz c
  · obtain ⟨h1, h2, h3⟩ := hz c
    simp only [Smoother.read, HeavyMovingAverage.read]
    split
    · exact h2
    · rw [h1]
      simp

/-- Processing an all-zero block from a zero state returns an all-zero
level vector and stays in a zero state. -/
theorem SlidingDFT.process_zero (s : SlidingDFT) (samples : List ℝ) (w : ℝ)
    (hz : s.ZeroState) (hsz : ∀ x ∈ samples, x = 0) :
    (∀ v ∈ (s.process samples w).2, v = 0) ∧ (s.process samples w).1.ZeroState := by
  obtain ⟨hz', hsm'⟩ := SlidingDFT.processBlock_zero s samples hz hsz
  have hraw : ∀ v ∈ (s.processBlock samples).levels, v = 0 :=
    SlidingDFT.levels_zero _ hz'.2.1
  unfold SlidingDFT.process
  simp only
  by_cases hw : 0 < w
  · rw [if_pos hw]
    rcases hopt : (s.processBlock samples).smoother with _ | sm
    · simp only [hopt]
      exact ⟨hraw, hz'⟩
    · simp only [hopt]
      have hsmz : SmootherZero sm := hz'.2.2 sm hopt
      have hlevz : ∀ c, (s.processBlock samples).levels.getD c 0 = 0 :=
        fun c => allZero_getD _ hraw c
      have hsw := Smoother.setWindow_zero sm (w * ((s.sampleRate : ℝ))) hsmz
      have hup := Smoother.update_zero _ _ hlevz hsw
      constructor
      · intro v hv
        simp only [List.mem_map] at hv
        obtain ⟨c, _, hcv⟩ := hv
        rw [← hcv]
        exact Smoother.read_zero _ c hup
      · refine ⟨hz'.1, hz'.2.1, ?_⟩
        intro sm2 hsm2
        injection hsm2 with hsm2'
        rw [← hsm2']
        exact hup
  · rw [if_neg hw]
    exact ⟨hraw, hz'⟩

/-- Every level vector produced along a run of all-zero blocks is
all-zero, and the zero state persists. -/
theorem SlidingDFT.processRun_zero (s : SlidingDFT) (w : ℝ) (blocks : List (List ℝ))
    (hz : s.ZeroState) (hbz : ∀ bl ∈ blocks, ∀ x ∈ bl, x = 0) :
    (∀ out ∈ (s.processRun w blocks).2, ∀ v ∈ out, v = 0)
      ∧ (s.processRun w blocks).1.ZeroState := by
  induction blocks generalizing s with
  | nil => exact ⟨by simp [SlidingDFT.processRun], hz⟩
  | cons bl rest ih =>
    obtain ⟨hout, hz'⟩ := SlidingDFT.process_zero s bl w hz
      (hbz bl (List.mem_cons_self bl rest))
    obtain ⟨houts, hz''⟩ := ih (s.process bl w).1 hz'
      (fun b hb => hbz b (List.mem_cons_of_mem bl hb))
    constructor
    · intro out hmem
      simp only [SlidingDFT.processRun, List.mem_cons] at hmem
      rcases hmem with h | h
      · rw [h]; exact hout
      · exact houts out h
    · exact hz''

/-- The WASM wrapper class from pianolizer-wrapper.js: it owns the
analyzer instance, the size of the shared input buffer, and the view
into that buffer (samplesView). -/
structure Pianolizer where
  core : SlidingDFT
  samplesBufferSize : ℕ
  samplesView : List ℝ

/-- adjustSamplesBuffer from pianolizer-wrapper.js: reallocate the
shared input buffer only when the requested size differs from the
current one. -/
def Pianolizer.adjustSamplesBuffer (p : Pianolizer) (n : ℕ) : Pianolizer :=
  if p.samplesBufferSize = n then p
  else { p with samplesBufferSize := n, samplesView := List.replicate n 0 }

/-- The copy loop of Pianolizer.process (pianolizer-wrapper.js lines
85-88): for each index i below the buffer size, samplesView[i] is set to
samples[i] and then samples[i] is set to 0. -/
def copyAndZero (view samples : List ℝ) : ℕ → List ℝ × List ℝ
  | 0 => (view, samples)
  | i + 1 =>
      let p := copyAndZero view samples i
      (p.1.set i (p.2.getD i 0), p.2.set i 0)

/-- Pianolizer.process from pianolizer-wrapper.js: adjust the shared
buffer, copy the caller's samples into it while zeroing the caller's
array, run the analyzer on the shared buffer, and return a fresh copy of
the produced level vector.  The returned triple is (new wrapper state,
the caller's samples array after the call, the returned levels). -/
noncomputable def Pianolizer.process (p : Pianolizer) (samples : List ℝ)
    (averageWindowInSeconds : ℝ) : Pianolizer × List ℝ × List ℝ :=
  let p1 := p.adjustSamplesBuffer samples.length
  let cz := copyAndZero p1.samplesView samples p1.samplesBufferSize
  let r := p1.core.process cz.1 averageWindowInSeconds
  (⟨r.1, p1.samplesBufferSize, cz.1⟩, cz.2, r.2)

theorem copyAndZero_spec (view samples : List ℝ) (n : ℕ)
    (hn : n ≤ samples.length) (hv : n ≤ view.length) :
    (copyAndZero view samples n).1
        = samples.take n ++ view.drop n
      ∧ (copyAndZero view samples n).2
        = List.replicate n 0 ++ samples.drop n := by
  induction n with
  | zero => simp [copyAndZero]
  | succ i ih =>
    obtain ⟨ih1, ih2⟩ := ih (by omega) (by omega)
    have hi : i < samples.length := by omega
    have hiv : i < view.length := by omega
    have hget : (copyAndZero view samples i).2.getD i 0 = samples.getD i 0 := by
      rw [ih2, List.getD_append_right _ _ _ _ (by simp), List.length_replicate,
        Nat.sub_self]
      rw [List.getD_eq_getElem _ _ (by simp; omega), List.getElem_drop,
        List.getD_eq_getElem _ _ (by omega)]
      simp
    constructor
    · show ((copyAndZero view samples i).1.set i
          ((copyAndZero view samples i).2.getD i 0)) = _
      rw [hget, ih1]
      have hlen : (samples.take i).length = i := by simp; omega
      rw [List.set_append_right _ _ (by omega), hlen, Nat.sub_self]
      have hdrop : view.drop i = view[i] :: view.drop (i + 1) :=
        (List.drop_eq_getElem_cons hiv)
      rw [hdrop]
      simp only [List.set_cons_zero]
      rw [List.getD_eq_getElem _ _ hi]
      have htake : samples.take (i + 1) = samples.take i ++ [samples[i]] := by
        rw [List.take_succ, List.getElem?_eq_getElem hi]
        rfl
      rw [htake, List.append_assoc]
      rfl
    · show ((copyAndZero view samples i).2.set i 0) = _
      rw [ih2]
      rw [List.set_append_right _ _ (by simp), List.length_replicate, Nat.sub_self]
      have hdrop : samples.drop i = samples[i] :: samples.drop (i + 1) :=
        (List.drop_eq_getElem_cons hi)
      rw [hdrop]
      simp only [List.set_cons_zero]
      rw [List.replicate_succ']
      simp

/-- C1: the Frequency Bin Tracker maintains its complex coefficient by
exactly the recursion X[n] = (X[n-1] + x[n] - x[n-N]) * W per update
call, where W is the rotation for the bin's (k, N) implemented with
magnitude |W| = 1 - eps strictly below one, so that for every input
stream bounded in [-1, 1] the accumulator magnitude stays bounded
(by 2(1 - eps)/eps) for all time. -/
theorem claim1_dft_recursion_contraction_bounded (k N : ℕ) (eps ref : ℝ)
    (xs : ℕ → ℝ) (n : ℕ) (heps0 : 0 < eps) (heps1 : eps ≤ 1)
    (hx : ∀ i, |xs i| ≤ 1) :
    (((makeDFTBin k N eps ref).run xs (n + 1)).accumulator
        = (((makeDFTBin k N eps ref).run xs n).accumulator + ((xs n : ℝ) : ℂ)
            - ((dftOldSample xs N n : ℝ) : ℂ)) * (makeDFTBin k N eps ref).coeff)
      ∧ Complex.abs (makeDFTBin k N eps ref).coeff = 1 - eps
      ∧ Complex.abs ((makeDFTBin k N eps ref).run xs n).accumulator
          ≤ 2 * (1 - eps) / eps := by
  refine ⟨?_, makeDFTBin_abs_coeff k N eps ref heps1, ?_⟩
  · show (((makeDFTBin k N eps ref).run xs n).update
        (dftOldSample xs (makeDFTBin k N eps ref).N n) (xs n)).accumulator = _
    simp only [DFTBin.update]
    rw [DFTBin.run_coeff]
    rfl
  · have habs := makeDFTBin_abs_coeff k N eps ref heps1
    have hbound := DFTBin.run_abs_le (makeDFTBin k N eps ref) xs (1 - eps)
      (by linarith) (by linarith) (le_of_eq habs) rfl hx n
    have : 1 - (1 - eps) = eps := by ring
    rw [this] at hbound
    exact hbound

/-- Witness for C1 at a concrete bin, contraction and stream. -/
theorem claim1_witness :
    (((makeDFTBin 17 1700 (1 / 2) 1).run (fun _ => 1) (2 + 1)).accumulator
        = (((makeDFTBin 17 1700 (1 / 2) 1).run (fun _ => 1) 2).accumulator
            + (((fun _ => (1 : ℝ)) 2 : ℝ) : ℂ)
            - ((dftOldSample (fun _ => 1) 1700 2 : ℝ) : ℂ))
          * (makeDFTBin 17 1700 (1 / 2) 1).coeff)
      ∧ Complex.abs (makeDFTBin 17 1700 (1 / 2) 1).coeff = 1 - 1 / 2
      ∧ Complex.abs ((makeDFTBin 17 1700 (1 / 2) 1).run (fun _ => 1) 2).accumulator
          ≤ 2 * (1 - 1 / 2) / (1 / 2) :=
  claim1_dft_recursion_contraction_bounded 17 1700 (1 / 2) 1 (fun _ => 1) 2
    (by norm_num) (by norm_num) (fun i => by norm_num)

/-- C3 counterexample: the claimed bandwidth/2 bound on the realized
center frequency fails in general.  At sampleRate 44100, bandwidth 1000
(so N = round(44.1) = 44) and frequency 661059/440, the realized center
frequency deviates by 220059/440 > 500 = bandwidth/2. -/
theorem claim3_counterexample :
    ¬ |realizedFrequency 44100 (frequencyAndBandwidthToKAndN 44100 (661059 / 440) 1000)
        - 661059 / 440| ≤ 1000 / 2 := by
  have hN : round ((44100 : ℚ) / 1000) = 44 := by norm_num [round_eq]
  have hk : round ((661059 / 440 : ℚ) * ((44 : ℤ) : ℚ) / 44100) = 1 := by
    norm_num [round_eq]
  simp only [frequencyAndBandwidthToKAndN, realizedFrequency, hN, hk]
  norm_num [abs_le]

/-- C3 (amended): frequencyAndBandwidthToKAndN computes N and k by the
stated roundings, and the realized center frequency deviates from the
request by at most sampleRate/(2N) — which is bandwidth/2 only when
N ≥ sampleRate/bandwidth; both keys of the doorbell tuning do satisfy
the bandwidth/2 bound. -/
theorem claim3_amended (sampleRate frequency bandwidth : ℚ)
    (hsr : 0 < sampleRate)
    (hN : 1 ≤ (frequencyAndBandwidthToKAndN sampleRate frequency bandwidth).2) :
    (frequencyAndBandwidthToKAndN sampleRate frequency bandwidth
        = (round (frequency * ((round (sampleRate / bandwidth) : ℤ) : ℚ) / sampleRate),
           round (sampleRate / bandwidth)))
      ∧ |realizedFrequency sampleRate
            (frequencyAndBandwidthToKAndN sampleRate frequency bandwidth) - frequency|
          ≤ sampleRate
            / (2 * ((frequencyAndBandwidthToKAndN sampleRate frequency bandwidth).2 : ℚ))
      ∧ |realizedFrequency 8000 (frequencyAndBandwidthToKAndN 8000 727 2) - 727| ≤ 2 / 2
      ∧ |realizedFrequency 8000 (frequencyAndBandwidthToKAndN 8000 977 2) - 977| ≤ 2 / 2 :=
  ⟨rfl, realizedFrequency_err sampleRate frequency bandwidth hsr hN,
    by
      have hND : round ((8000 : ℚ) / 2) = 4000 := by norm_num [round_eq]
      have hkD : round ((727 : ℚ) * ((4000 : ℤ) : ℚ) / 8000) = 364 := by
        norm_num [round_eq]
      simp only [frequencyAndBandwidthToKAndN, realizedFrequency, hND, hkD]
      norm_num [abs_le],
    by
      have hND : round ((8000 : ℚ) / 2) = 4000 := by norm_num [round_eq]
      have hkD : round ((977 : ℚ) * ((4000 : ℤ) : ℚ) / 8000) = 489 := by
        norm_num [round_eq]
      simp only [frequencyAndBandwidthToKAndN, realizedFrequency, hND, hkD]
      norm_num [abs_le]⟩

/-- Witness for C3 at the doorbell configuration. -/
theorem claim3_witness :
    (frequencyAndBandwidthToKAndN 8000 727 2
        = (round ((727 : ℚ) * ((round ((8000 : ℚ) / 2) : ℤ) : ℚ) / 8000),
           round ((8000 : ℚ) / 2)))
      ∧ |realizedFrequency 8000 (frequencyAndBandwidthToKAndN 8000 727 2) - 727|
          ≤ 8000 / (2 * ((frequencyAndBandwidthToKAndN 8000 727 2).2 : ℚ))
      ∧ |realizedFrequency 8000 (frequencyAndBandwidthToKAndN 8000 727 2) - 727| ≤ 2 / 2
      ∧ |realizedFrequency 8000 (frequencyAndBandwidthToKAndN 8000 977 2) - 977| ≤ 2 / 2 :=
  claim3_amended 8000 727 2 (by norm_num)
    (by simp only [frequencyAndBandwidthToKAndN]; norm_num [round_eq])

/-- C4: for the circular sample buffer, after any sequence of writes,
read(lag) with 1 ≤ lag ≤ capacity returns exactly the lag-th most
recently written sample. -/
theorem claim4_ring_buffer_read (cap : ℕ) (ws : List ℚ) (lag : ℕ)
    (h1 : 1 ≤ lag) (h2 : lag ≤ cap) (h3 : lag ≤ ws.length) :
    ((RingBuffer.init ℚ cap).writeAll ws).read lag = ws.getD (ws.length - lag) 0 :=
  RingBuffer.writeAll_read _ ws lag h1 h2 h3

/-- Witness for C4 on a concrete write sequence. -/
theorem claim4_witness :
    ((RingBuffer.init ℚ 3).writeAll [1, 2, 3, 4]).read 2
      = ([1, 2, 3, 4] : List ℚ).getD (([1, 2, 3, 4] : List ℚ).length - 2) 0 :=
  claim4_ring_buffer_read 3 [1, 2, 3, 4] 2 (by decide) (by decide) (by decide)

/-- C5 counterexample: the Fast Moving Average does reach its input
constant exactly in finitely many steps when the constant equals the
initial accumulator value: with constant stream 0 its read equals 0
already after one update, contradicting the claim's unconditional
"never equals c exactly". -/
theorem claim5_counterexample : (fastConstRun 1 2 0 1).read 0 = 0 := by
  have h1 : fastConstRun 1 2 0 1
      = (FastMovingAverage.init 1 2).update (fun _ => 0) := rfl
  rw [FastMovingAverage.read, h1]
  simp only [FastMovingAverage.update, FastMovingAverage.init]
  norm_num

/-- C5 (amended): on a constant stream the Heavy Moving Average reads
exactly the constant once its window (within preallocated capacity) has
filled, while the Fast Moving Average — for a constant different from
its zero initial accumulator and an effective coefficient strictly
inside (0, 1), i.e. window > 1 sample — never equals the constant after
any finite number of updates. -/
theorem claim5_moving_average_constant (channels maxWindow W : ℕ) (c q w : ℚ)
    (n m ch : ℕ) (hW1 : 1 ≤ W) (hWcap : W ≤ maxWindow) (hn : W ≤ n)
    (hch : ch < channels) (hw : 1 < w) (hq : q ≠ 0) :
    (heavyConstRun channels maxWindow W c n).read ch = c
      ∧ (fastConstRun channels w q m).read ch ≠ q :=
  ⟨heavyConstRun_read channels maxWindow W c n (by omega) (by omega) ch hch,
   fastConstRun_read_ne channels w q hw hq m ch hch⟩

/-- Witness for C5 on concrete filters and streams. -/
theorem claim5_witness :
    (heavyConstRun 1 3 2 5 2).read 0 = 5 ∧ (fastConstRun 1 2 1 4).read 0 ≠ 1 :=
  claim5_moving_average_constant 1 3 2 5 1 2 2 4 0 (by decide) (by decide)
    (by decide) (by decide) (by decide) (by decide)

/-- C6: with a zero averaging window, process applies no extra smoothing
and returns the raw level vector, and both moving-average variants
degrade to passthrough of the latest raw input on every active
channel. -/
theorem claim6_window_zero_passthrough (s : SlidingDFT) (samples : List ℝ)
    (f : FastMovingAverage ℚ) (hq : HeavyMovingAverage ℚ) (levels : ℕ → ℚ) (c : ℕ)
    (hcf : c < f.channels) (hch : c < hq.channels)
    (hf0 : f.averageWindow = 0) (hh0 : hq.averageWindow = 0) :
    (s.process samples 0).2 = (s.processBlock samples).levels
      ∧ (f.update levels).read c = levels c
      ∧ (hq.update levels).read c = levels c := by
  refine ⟨?_, ?_, ?_⟩
  · unfold SlidingDFT.process
    simp only
    rw [if_neg (lt_irrefl (0 : ℝ))]
  · rw [FastMovingAverage.read]
    show (if c < f.channels then
        if 0 < f.averageWindow then f.history c + (levels c - f.history c) / f.averageWindow
        else levels c
      else f.history c) = levels c
    rw [if_pos hcf, hf0, if_neg (lt_irrefl (0 : ℚ))]
  · rw [HeavyMovingAverage.read]
    have hw' : (hq.update levels).averageWindow = hq.averageWindow := rfl
    rw [hw', hh0, if_pos rfl]
    show (if c < hq.channels then levels c else hq.latest c) = levels c
    rw [if_pos hch]

/-- Witness for C6 on concrete filters, a concrete pipeline state and a
concrete input. -/
theorem claim6_witness :
    ((buildSlidingDFT 8000 [] none 0 1).process [0] 0).2
        = ((buildSlidingDFT 8000 [] none 0 1).processBlock [0]).levels
      ∧ ((FastMovingAverage.init 1 (0 : ℚ)).update (fun _ => 7)).read 0 = (fun _ => (7 : ℚ)) 0
      ∧ ((HeavyMovingAverage.init 1 3 : HeavyMovingAverage ℚ).update (fun _ => 7)).read 0
        = (fun _ => (7 : ℚ)) 0 :=
  claim6_window_zero_passthrough (buildSlidingDFT 8000 [] none 0 1) [0]
    (FastMovingAverage.init 1 0) (HeavyMovingAverage.init 1 3) (fun _ => 7) 0
    (by decide) (by decide) rfl rfl

/-- C7: from the post-construction state, every block consisting
entirely of zero samples produces an all-zero level vector, and the
all-zero state persists for all subsequent all-zero blocks. -/
theorem claim7_silence_zero_levels (sampleRate : ℚ) (reqs : List (ℚ × ℚ))
    (smoothing : Option (SmootherKind × ℕ)) (eps ref : ℝ) (s : SlidingDFT)
    (hs : makeSlidingDFT sampleRate reqs smoothing eps ref = some s)
    (w : ℝ) (blocks : List (List ℝ)) (hbz : ∀ bl ∈ blocks, ∀ x ∈ bl, x = 0) :
    (∀ out ∈ (s.processRun w blocks).2, ∀ v ∈ out, v = 0)
      ∧ (s.processRun w blocks).1.ZeroState :=
  SlidingDFT.processRun_zero s w blocks
    (makeSlidingDFT_zeroState sampleRate reqs smoothing eps ref s hs) hbz

/-- The doorbell configuration constructs successfully, yielding the
expected pipeline state. -/
theorem doorbell_make_ok :
    makeSlidingDFT 8000 [((727 : ℚ), (2 : ℚ)), (977, 2)] none (1 / 100) 1
      = some (buildSlidingDFT 8000
          ([((727 : ℚ), (2 : ℚ)), (977, 2)].map
            (fun r => frequencyAndBandwidthToKAndN 8000 r.1 r.2)) none (1 / 100) 1) := by
  unfold makeSlidingDFT
  simp only
  rw [if_pos]
  refine ⟨by norm_num, ?_⟩
  intro p hp
  obtain ⟨r, hr, hrp⟩ := List.mem_map.mp hp
  have hND : round ((8000 : ℚ) / 2) = 4000 := by norm_num [round_eq]
  rcases List.mem_cons.mp hr with h | h
  · rw [← hrp, h]
    unfold frequencyAndBandwidthToKAndN validKAndN
    simp only [hND]
    have hkD : round ((727 : ℚ) * ((4000 : ℤ) : ℚ) / 8000) = 364 := by
      norm_num [round_eq]
    rw [hkD]
    norm_num
  · rw [List.mem_singleton] at h
    rw [← hrp, h]
    unfold frequencyAndBandwidthToKAndN validKAndN
    simp only [hND]
    have hkD : round ((977 : ℚ) * ((4000 : ℤ) : ℚ) / 8000) = 489 := by
      norm_num [round_eq]
    rw [hkD]
    norm_num

/-- Witness for C7 on the doorbell configuration fed two blocks of
silence. -/
theorem claim7_witness :
    (∀ out ∈ ((buildSlidingDFT 8000
          ([((727 : ℚ), (2 : ℚ)), (977, 2)].map
            (fun r => frequencyAndBandwidthToKAndN 8000 r.1 r.2)) none (1 / 100) 1).processRun
          0 [[0, 0], [0]]).2, ∀ v ∈ out, v = 0)
      ∧ ((buildSlidingDFT 8000
          ([((727 : ℚ), (2 : ℚ)), (977, 2)].map
            (fun r => frequencyAndBandwidthToKAndN 8000 r.1 r.2)) none (1 / 100) 1).processRun
          0 [[0, 0], [0]]).1.ZeroState :=
  claim7_silence_zero_levels 8000 [(727, 2), (977, 2)] none (1 / 100) 1 _
    doorbell_make_ok 0 [[0, 0], [0]] (by simp)

/-- C8: construction succeeds exactly when the sample rate is positive
and every derived (k, N) pair satisfies N > 0 and 0 ≤ k < N; otherwise
it fails fast at construction rather than clamping to some valid bin. -/
theorem claim8_construction_validation (sampleRate : ℚ) (reqs : List (ℚ × ℚ))
    (smoothing : Option (SmootherKind × ℕ)) (eps ref : ℝ) :
    (makeSlidingDFT sampleRate reqs smoothing eps ref).isSome = true
      ↔ (0 < sampleRate ∧ ∀ r ∈ reqs,
          validKAndN (frequencyAndBandwidthToKAndN sampleRate r.1 r.2)) := by
  unfold makeSlidingDFT
  simp only
  by_cases hcond : 0 < sampleRate ∧ ∀ p ∈ reqs.map
      (fun r => frequencyAndBandwidthToKAndN sampleRate r.1 r.2), validKAndN p
  · rw [if_pos hcond]
    constructor
    · intro _
      exact ⟨hcond.1, fun r hr => hcond.2 _ (List.mem_map_of_mem _ hr)⟩
    · intro _
      rfl
  · rw [if_neg hcond]
    constructor
    · intro hfalse
      simp at hfalse
    · intro hc
      exfalso
      apply hcond
      refine ⟨hc.1, ?_⟩
      intro p hp
      obtain ⟨r, hr, hrp⟩ := List.mem_map.mp hp
      rw [← hrp]
      exact hc.2 r hr

/-- C9: a runtime window request on the Heavy Moving Average exceeding
the preallocated capacity is clamped to that capacity, leaving every
other part of the state untouched (no reallocation, no corruption), and
the clamped filter still computes the exact mean — a constant stream
reads back exactly once the clamped window has filled. -/
theorem claim9_heavy_window_clamped (h : HeavyMovingAverage ℚ) (r : ℕ)
    (hr : h.maxAverageWindow < r) (channels cap n r' ch : ℕ) (c : ℚ)
    (hcap : 1 ≤ cap) (hr' : cap < r') (hn : cap ≤ n) (hch : ch < channels) :
    (h.setAverageWindow r).averageWindow = h.maxAverageWindow
      ∧ (h.setAverageWindow r).maxAverageWindow = h.maxAverageWindow
      ∧ (h.setAverageWindow r).history = h.history
      ∧ (h.setAverageWindow r).sum = h.sum
      ∧ (heavyConstRun channels cap r' c n).read ch = c := by
  refine ⟨?_, rfl, rfl, rfl, ?_⟩
  · show min r h.maxAverageWindow = h.maxAverageWindow
    omega
  · exact heavyConstRun_read channels cap r' c n (by omega) (by omega) ch hch

/-- Witness for C9 on a concrete oversized request. -/
theorem claim9_witness :
    ((HeavyMovingAverage.init 2 5 : HeavyMovingAverage ℚ).setAverageWindow 9).averageWindow
        = (HeavyMovingAverage.init 2 5 : HeavyMovingAverage ℚ).maxAverageWindow
      ∧ ((HeavyMovingAverage.init 2 5 : HeavyMovingAverage ℚ).setAverageWindow 9).maxAverageWindow
        = (HeavyMovingAverage.init 2 5 : HeavyMovingAverage ℚ).maxAverageWindow
      ∧ ((HeavyMovingAverage.init 2 5 : HeavyMovingAverage ℚ).setAverageWindow 9).history
        = (HeavyMovingAverage.init 2 5 : HeavyMovingAverage ℚ).history
      ∧ ((HeavyMovingAverage.init 2 5 : HeavyMovingAverage ℚ).setAverageWindow 9).sum
        = (HeavyMovingAverage.init 2 5 : HeavyMovingAverage ℚ).sum
      ∧ (heavyConstRun 1 2 4 7 3).read 0 = 7 :=
  claim9_heavy_window_clamped (HeavyMovingAverage.init 2 5) 9 (by decide)
    1 2 3 4 0 7 (by decide) (by decide) (by decide) (by decide)

/-- C10: the wrapper's process destructively consumes the caller's
samples array — after the call every element has been set to zero —
while the analyzer runs on a faithful copy of the original samples and
the returned level vector is the analyzer output copied out by value,
independent of the zeroed caller array. -/
theorem claim10_process_consumes_input (p : Pianolizer) (samples : List ℝ) (w : ℝ)
    (hinv : p.samplesView.length = p.samplesBufferSize) :
    (p.process samples w).2.1 = List.replicate samples.length 0
      ∧ (p.process samples w).2.2
        = ((p.adjustSamplesBuffer samples.length).core.process samples w).2 := by
  have hsize : (p.adjustSamplesBuffer samples.length).samplesBufferSize
      = samples.length := by
    unfold Pianolizer.adjustSamplesBuffer
    split
    · next heq => exact heq
    · rfl
  have hvlen : (p.adjustSamplesBuffer samples.length).samplesView.length
      = samples.length := by
    unfold Pianolizer.adjustSamplesBuffer
    split
    · next heq => rw [hinv, heq]
    · simp
  obtain ⟨hcz1, hcz2⟩ := copyAndZero_spec
    (p.adjustSamplesBuffer samples.length).samplesView samples
    (p.adjustSamplesBuffer samples.length).samplesBufferSize
    (by omega) (by omega)
  have hfull1 : (copyAndZero (p.adjustSamplesBuffer samples.length).samplesView samples
      (p.adjustSamplesBuffer samples.length).samplesBufferSize).1 = samples := by
    rw [hcz1, hsize, List.drop_eq_nil_of_le (by omega), List.take_length]
    simp
  have hfull2 : (copyAndZero (p.adjustSamplesBuffer samples.length).samplesView samples
      (p.adjustSamplesBuffer samples.length).samplesBufferSize).2
      = List.replicate samples.length 0 := by
    rw [hcz2, hsize, List.drop_length]
    simp
  constructor
  · show (copyAndZero (p.adjustSamplesBuffer samples.length).samplesView samples
        (p.adjustSamplesBuffer samples.length).samplesBufferSize).2 = _
    exact hfull2
  · show ((p.adjustSamplesBuffer samples.length).core.process
        (copyAndZero (p.adjustSamplesBuffer samples.length).samplesView samples
          (p.adjustSamplesBuffer samples.length).samplesBufferSize).1 w).2 = _
    rw [hfull1]

/-- Witness for C10 on a concrete wrapper state and block. -/
theorem claim10_witness :
    ((⟨buildSlidingDFT 8000 [] none 0 1, 0, []⟩ : Pianolizer).process [1, 2] 0).2.1
        = List.replicate ([1, 2] : List ℝ).length 0
      ∧ ((⟨buildSlidingDFT 8000 [] none 0 1, 0, []⟩ : Pianolizer).process [1, 2] 0).2.2
        = (((⟨buildSlidingDFT 8000 [] none 0 1, 0, []⟩ : Pianolizer).adjustSamplesBuffer
            ([1, 2] : List ℝ).length).core.process [1, 2] 0).2 :=
  claim10_process_consumes_input ⟨buildSlidingDFT 8000 [] none 0 1, 0, []⟩ [1, 2] 0 rfl
